import Mathlib

set_option maxRecDepth 100000

/-!
Verification of the timeline/clip model, the playback scheduler tick, and the
ffmpeg-backed decoder session of the mov-editor repository.

The definitions below are a shallow embedding of `src/main.rs` and
`src/ffmpeg_decoder.rs`.  Rust `Duration` values and `f32`/`f64` second
counts are both modelled as rationals (the claims under study are structural;
none depends on floating-point rounding).  UI handles (textures, egui
contexts) and wall-clock instants are outside the embedding: the per-frame
wall-clock delta that `update` computes from `last_frame_time` is passed to
the tick function as an explicit argument.
-/

namespace MovEditor

/-- Embedding of `VideoInfo` (`main.rs` lines 8-16). -/
structure VideoInfo where
  path : String
  duration : ℚ
  width : ℕ
  height : ℕ
  fps : ℚ
  has_audio : Bool
deriving DecidableEq, Repr

/-- Embedding of `Clip` (`main.rs` lines 19-26).  `source_video` is the
shared `Arc<VideoInfo>`; sharing is immaterial to the claims, so the record
is stored by value. -/
structure Clip where
  source_video : VideoInfo
  start_time : ℚ
  end_time : ℚ
  id : ℕ
  position : ℚ
deriving DecidableEq, Repr

/-- Embedding of the state of `VideoEditorApp` (`main.rs` lines 29-42).
`preview_texture` (a GPU handle) and `last_frame_time` (a wall-clock
instant, replaced by the explicit tick delta) are not represented. -/
structure VideoEditorApp where
  loaded_video : Option VideoInfo
  clips : List Clip
  selected_clip : Option ℕ
  timeline_zoom : ℚ
  playhead_position : ℚ
  next_clip_id : ℕ
  dragging_clip : Option ℕ
  drag_offset : ℚ
  timeline_scroll : ℚ
  is_playing : Bool
deriving DecidableEq, Repr

/-- Embedding of `VideoEditorApp::default` (`main.rs` lines 44-61). -/
def VideoEditorApp.default : VideoEditorApp :=
  { loaded_video := none
    clips := []
    selected_clip := none
    timeline_zoom := 1
    playhead_position := 0
    next_clip_id := 0
    dragging_clip := none
    drag_offset := 0
    timeline_scroll := 0
    is_playing := false }

/-- Embedding of `VideoEditorApp::parse_mov_file` (`main.rs` lines 86-104).
File-system access is modelled by `file_len : Option ℕ`, the size in bytes
reported by `metadata.len()` (`none` when opening the file or reading its
metadata fails).  The duration estimate is `Duration::from_secs(len / 1_000_000)`,
an integer division of the byte length. -/
def parse_mov_file (path : String) (file_len : Option ℕ) : Option VideoInfo :=
  match file_len with
  | none => none
  | some len =>
      some { path := path
             duration := ((len / 1000000 : ℕ) : ℚ)
             width := 1920
             height := 1080
             fps := 30
             has_audio := true }

/-- Embedding of `VideoEditorApp::load_video` (`main.rs` lines 64-84):
on a successful parse, stores the video and appends one clip spanning the
whole source at `position = 0`, consuming one fresh id. -/
def load_video (app : VideoEditorApp) (path : String) (file_len : Option ℕ) :
    VideoEditorApp :=
  match parse_mov_file path file_len with
  | none => app
  | some info =>
      { app with
          loaded_video := some info
          clips := app.clips ++
            [{ source_video := info
               start_time := 0
               end_time := info.duration
               id := app.next_clip_id
               position := 0 }]
          next_clip_id := app.next_clip_id + 1 }

/-- Walks the clip list to the first clip whose `id` matches, exactly as
`self.clips.iter().position(|c| c.id == clip_id)` does in
`VideoEditorApp::split_clip` (`main.rs` lines 106-128); on a match inside
the open interval, shrinks that clip to end at `split_time` and inserts the
new right-hand clip (with id `next_id`) immediately after it. -/
def split_clips_aux (next_id : ℕ) (clip_id : ℕ) (split_time : ℚ) :
    List Clip → List Clip
  | [] => []
  | c :: rest =>
      if c.id = clip_id then
        if c.start_time < split_time ∧ split_time < c.end_time then
          { c with end_time := split_time } ::
          { source_video := c.source_video
            start_time := split_time
            end_time := c.end_time
            id := next_id
            position := c.position + (split_time - c.start_time) } :: rest
        else c :: rest
      else c :: split_clips_aux next_id clip_id split_time rest

/-- True exactly when `split_clip` on this list actually performs a split
(first id match exists and the split point is strictly inside it), i.e.
when the source increments `next_clip_id`. -/
def split_applies (clip_id : ℕ) (split_time : ℚ) : List Clip → Bool
  | [] => false
  | c :: rest =>
      if c.id = clip_id then
        decide (c.start_time < split_time ∧ split_time < c.end_time)
      else split_applies clip_id split_time rest

/-- Embedding of `VideoEditorApp::split_clip` (`main.rs` lines 106-128). -/
def split_clip (app : VideoEditorApp) (clip_id : ℕ) (split_time : ℚ) :
    VideoEditorApp :=
  { app with
      clips := split_clips_aux app.next_clip_id clip_id split_time app.clips
      next_clip_id :=
        if split_applies clip_id split_time app.clips then app.next_clip_id + 1
        else app.next_clip_id }

/-- Embedding of `VideoEditorApp::delete_selected_clip` (`main.rs` lines
130-135): `retain(|c| c.id != selected_id)` keeps, in order and unchanged,
every clip whose id differs from the selected one. -/
def delete_selected_clip (app : VideoEditorApp) : VideoEditorApp :=
  match app.selected_clip with
  | none => app
  | some selected_id =>
      { app with
          clips := app.clips.filter (fun c => c.id != selected_id)
          selected_clip := none }

/-- The covered interval test of the timeline click handler (`main.rs`
lines 416-420): `time_pos >= clip.position && time_pos <= clip.position +
(end_time - start_time)`.  Note both bounds are inclusive: the covered
interval is closed. -/
def covers (c : Clip) (time_pos : ℚ) : Prop :=
  c.position ≤ time_pos ∧ time_pos ≤ c.position + (c.end_time - c.start_time)

instance (c : Clip) (time_pos : ℚ) : Decidable (covers c time_pos) := by
  unfold covers; infer_instance

/-- The clip-lookup loop of the timeline click handler (`main.rs` lines
415-431): scans the clips in list order and stops (`break`) at the first
clip whose closed covered interval contains `time_pos`.  This loop is the
realization in the code of what the spec calls `resolve`. -/
def resolve : List Clip → ℚ → Option Clip
  | [], _ => none
  | c :: rest, time_pos =>
      if covers c time_pos then some c else resolve rest time_pos

/-- Embedding of the click branch of `update` (`main.rs` lines 410-433):
on a plain click the first covering clip becomes selected; on a
shift-click that clip is split at source time
`clip.start_time + (time_pos - clip.position)`. -/
def handle_timeline_click (app : VideoEditorApp) (time_pos : ℚ)
    (shift : Bool) : VideoEditorApp :=
  match resolve app.clips time_pos with
  | none => app
  | some clip =>
      if shift then
        split_clip app clip.id (clip.start_time + (time_pos - clip.position))
      else { app with selected_clip := some clip.id }

/-- Embedding of the playback-advance block of `update` (`main.rs` lines
150-168): while playing, add the elapsed wall-clock delta to the playhead;
then, if a video is loaded and the playhead has reached or passed its
duration, reset the playhead to 0 and stop. -/
def playback_tick (app : VideoEditorApp) (delta : ℚ) : VideoEditorApp :=
  if app.is_playing then
    let pos := app.playhead_position + delta
    match app.loaded_video with
    | some video =>
        if video.duration ≤ pos then
          { app with playhead_position := 0, is_playing := false }
        else { app with playhead_position := pos }
    | none => { app with playhead_position := pos }
  else app

/-- The play button (`main.rs` lines 196-199). -/
def press_play (app : VideoEditorApp) : VideoEditorApp :=
  { app with is_playing := true }

/-- The pause button (`main.rs` lines 192-194). -/
def press_pause (app : VideoEditorApp) : VideoEditorApp :=
  { app with is_playing := false }

/-- The stop button (`main.rs` lines 202-205). -/
def press_stop (app : VideoEditorApp) : VideoEditorApp :=
  { app with is_playing := false, playhead_position := 0 }

/-- One editing interaction reachable through the UI: loading a file,
calling `split_clip` directly (the cut button, `main.rs` lines 210-216,
does this at the playhead), clicking the timeline (select or shift-split),
or pressing delete. -/
inductive EditOp where
  | load (path : String) (file_len : Option ℕ)
  | split (clip_id : ℕ) (t : ℚ)
  | click (time_pos : ℚ) (shift : Bool)
  | deleteSelected
deriving DecidableEq, Repr

def EditOp.isLoad : EditOp → Bool
  | .load _ _ => true
  | _ => false

def apply_op (app : VideoEditorApp) : EditOp → VideoEditorApp
  | .load path len => load_video app path len
  | .split clip_id t => split_clip app clip_id t
  | .click time_pos shift => handle_timeline_click app time_pos shift
  | .deleteSelected => delete_selected_clip app

def apply_ops (app : VideoEditorApp) (ops : List EditOp) : VideoEditorApp :=
  ops.foldl apply_op app

/-! Embedding of the decoder session of `src/ffmpeg_decoder.rs`.  The ffmpeg
library underneath it is modelled as a fully demuxed packet list: `new`
probes the container once, and afterwards `input.packets()` yields the
packets from the current demux cursor onward, while `input.seek` moves that
cursor.  Audio output (rodio sink) plays no part in the claims under study
and is not represented. -/

/-- Embedding of the decoded-frame record `VideoFrame`
(`ffmpeg_decoder.rs` lines 23-29). -/
structure VideoFrame where
  data : List ℕ
  width : ℕ
  height : ℕ
  timestamp : ℚ
deriving DecidableEq, Repr

/-- One demuxed packet of the opened container.  `decodable` abstracts the
soft per-packet pipeline of `read_frame`: it is true exactly when
`send_packet` succeeds, `receive_frame` yields a frame, and the scaler run
succeeds; `frame_data` is the scaled RGBA payload that pipeline would
produce, and `pts` is the presentation timestamp `frame.timestamp()`
carries (`none` when the frame has no timestamp). -/
structure FPacket where
  stream_index : ℕ
  keyframe : Bool
  pts : Option ℤ
  decodable : Bool
  frame_data : List ℕ
deriving DecidableEq, Repr

/-- Embedding of the state of `FFmpegDecoder` (`ffmpeg_decoder.rs` lines
31-41).  `all_packets` with `cursor` model the `input` demux context (the
packets still to be read are those from `cursor` on); `width`/`height` are
the decoder dimensions the scaler preserves; `time_base` is the video
stream time base. -/
structure FFmpegDecoder where
  all_packets : List FPacket
  cursor : ℕ
  video_stream_index : ℕ
  time_base : ℚ
  width : ℕ
  height : ℕ
  current_frame : Option VideoFrame
deriving DecidableEq, Repr

/-- Keyframe test used by the seek model: a packet of the given stream that
is a keyframe with a presentation timestamp at or before `ts`. -/
def keyframe_le (stream : ℕ) (ts : ℤ) (p : FPacket) : Bool :=
  p.stream_index == stream && p.keyframe &&
    (match p.pts with
     | some v => decide (v ≤ ts)
     | none => false)

/-- Modelled from the documented semantics of the external library call
`input.seek(timestamp, ..timestamp)` (ffmpeg `avformat_seek_file` with
`max_ts = timestamp`), which is not code of this repository: it repositions
the demux cursor to the latest keyframe whose timestamp is at or before
`ts`, and fails when no such keyframe exists.  Returns the new cursor
index. -/
def libSeekIndex (stream : ℕ) (ts : ℤ) : List FPacket → Option ℕ
  | [] => none
  | p :: rest =>
      match libSeekIndex stream ts rest with
      | some i => some (i + 1)
      | none => if keyframe_le stream ts p then some 0 else none

/-- Embedding of `FFmpegDecoder::seek_to_time` (`ffmpeg_decoder.rs` lines
135-144).  The Rust code converts `time` to a stream timestamp with
`(time.as_secs_f64() / time_base) as i64`; `time` is a nonnegative
`Duration`, for which the `as i64` truncation agrees with the floor.  Note
that `current_frame` is left untouched. -/
def seek_to_time (d : FFmpegDecoder) (time : ℚ) : Except String FFmpegDecoder :=
  let timestamp : ℤ := ⌊time / d.time_base⌋
  match libSeekIndex d.video_stream_index timestamp d.all_packets with
  | some i => Except.ok { d with cursor := i }
  | none => Except.error "Seek failed"

/-- The frame a successfully decoded packet turns into (`ffmpeg_decoder.rs`
lines 161-176): scaled data at the decoder dimensions, timestamp
`frame.timestamp() * time_base` or 0 when the frame carries none. -/
def decode_frame (d : FFmpegDecoder) (p : FPacket) : VideoFrame :=
  { data := p.frame_data
    width := d.width
    height := d.height
    timestamp :=
      match p.pts with
      | some ts => (ts : ℚ) * d.time_base
      | none => 0 }

/-- The packet loop of `FFmpegDecoder::read_frame` (`ffmpeg_decoder.rs`
lines 157-189), walking the remaining packets: non-video packets and
packets whose decode pipeline fails are skipped; the first packet that
decodes sets `current_frame` and breaks.  Returns how many packets were
consumed together with the resulting `current_frame`. -/
def read_frame_loop (d : FFmpegDecoder) : List FPacket → ℕ × Option VideoFrame
  | [] => (0, d.current_frame)
  | p :: rest =>
      if p.stream_index = d.video_stream_index ∧ p.decodable = true then
        (1, some (decode_frame d p))
      else
        let r := read_frame_loop d rest
        (r.1 + 1, r.2)

/-- Embedding of `FFmpegDecoder::read_frame` (`ffmpeg_decoder.rs` lines
146-192).  The function returns `self.current_frame.clone()` on every
path: the newly decoded frame when a packet decoded, and the previously
buffered frame (possibly `none`) when the packet stream is exhausted. -/
def read_frame (d : FFmpegDecoder) : FFmpegDecoder × Option VideoFrame :=
  ({ d with
      cursor := d.cursor + (read_frame_loop d (d.all_packets.drop d.cursor)).1
      current_frame := (read_frame_loop d (d.all_packets.drop d.cursor)).2 },
    (read_frame_loop d (d.all_packets.drop d.cursor)).2)

/-- Embedding of `FFmpegDecoder::get_current_frame` (`ffmpeg_decoder.rs`
lines 194-196). -/
def get_current_frame (d : FFmpegDecoder) : Option VideoFrame :=
  d.current_frame

/-- The per-clip well-formedness stated by the spec invariant:
`start < end <= source.duration` and `position >= 0`. -/
def ClipWf (c : Clip) : Prop :=
  c.start_time < c.end_time ∧ c.end_time ≤ c.source_video.duration ∧ 0 ≤ c.position

/-- Timeline order between two clips: the covered interval of the first
ends at or before the position of the second. -/
def clipBefore (a b : Clip) : Prop :=
  a.position + (a.end_time - a.start_time) ≤ b.position

/-- The inductive timeline invariant behind C9: every clip is well formed
and the list is pairwise in timeline order (which forces strictly
ascending positions). -/
def TimelineWf (clips : List Clip) : Prop :=
  (∀ c ∈ clips, ClipWf c) ∧ clips.Pairwise clipBefore

/-- The id invariant behind C10: every clip id is below the next-id
counter and the ids are pairwise distinct. -/
def IdInv (app : VideoEditorApp) : Prop :=
  (∀ c ∈ app.clips, c.id < app.next_clip_id) ∧ (app.clips.map Clip.id).Nodup

/-! Concrete demonstration states used by counterexamples and witnesses.
`demoApp` is the state after loading a 10 MB file, which the rough
metadata estimate turns into a 10 second source. -/

def demoInfo : VideoInfo :=
  { path := "a.mov", duration := 10, width := 1920, height := 1080
    fps := 30, has_audio := true }

def demoInfoB : VideoInfo :=
  { path := "b.mov", duration := 10, width := 1920, height := 1080
    fps := 30, has_audio := true }

def demoApp : VideoEditorApp :=
  load_video VideoEditorApp.default "a.mov" (some 10000000)

/-- The single clip of `demoApp`: the whole 10 second source at position 0. -/
def demoClip : Clip :=
  { source_video := demoInfo, start_time := 0, end_time := 10
    id := 0, position := 0 }

/-- `demoApp` after `split_clip 0 4`. -/
def demoSplit : VideoEditorApp := split_clip demoApp 0 4

/-- `demoApp` after loading a second 10 second source (its clip is also
placed at position 0, overlapping the first). -/
def demoTwoLoads : VideoEditorApp := load_video demoApp "b.mov" (some 10000000)

/-- `demoTwoLoads` after `split_clip 0 4`: clip ids in list order are
`[0, 2, 1]` and positions are `[0, 4, 0]`. -/
def demoOverlapSplit : VideoEditorApp := split_clip demoTwoLoads 0 4

/-- Left half of `demoClip` after the split at 4. -/
def demoClipLeft : Clip :=
  { source_video := demoInfo, start_time := 0, end_time := 4
    id := 0, position := 0 }

/-- Right half of `demoClip` after the split at 4 in `demoOverlapSplit`
(the fresh id there is 2). -/
def demoClipRight : Clip :=
  { source_video := demoInfo, start_time := 4, end_time := 10
    id := 2, position := 4 }

/-- The overlapping full-length clip of the second source. -/
def demoClipB : Clip :=
  { source_video := demoInfoB, start_time := 0, end_time := 10
    id := 1, position := 0 }

/-- `demoApp` split at 5, second half selected by a click at 7 and deleted,
then set playing: the timeline ends at 5 while the loaded source lasts 10. -/
def demoEndGap : VideoEditorApp :=
  press_play (delete_selected_clip (handle_timeline_click (split_clip demoApp 0 5) 7 false))

/-- `demoSplit` with the first half selected by a plain click at 2. -/
def demoSelected : VideoEditorApp := handle_timeline_click demoSplit 2 false

/-- A decodable video keyframe packet at pts 0. -/
def demoPacket : FPacket :=
  { stream_index := 0, keyframe := true, pts := some 0, decodable := true
    frame_data := [1, 2, 3] }

/-- A packet of the audio stream (index 1), skipped by the video read loop. -/
def demoAudioPacket : FPacket :=
  { stream_index := 1, keyframe := false, pts := some 0, decodable := true
    frame_data := [] }

/-- A freshly opened one-packet decoder session: nothing decoded yet. -/
def demoFreshDecoder : FFmpegDecoder :=
  { all_packets := [demoPacket], cursor := 0, video_stream_index := 0
    time_base := 1, width := 2, height := 2, current_frame := none }

/-- `demoFreshDecoder` after one successful read: the cursor is at the end
of the stream and the decoded frame is buffered. -/
def demoEosDecoder : FFmpegDecoder := (read_frame demoFreshDecoder).1

/-- A session whose next packet is an audio packet followed by a decodable
video packet. -/
def demoSkipDecoder : FFmpegDecoder :=
  { all_packets := [demoAudioPacket, demoPacket], cursor := 0
    video_stream_index := 0, time_base := 1, width := 2, height := 2
    current_frame := none }

/-! Helper lemmas about `resolve` and `split_clips_aux`. -/

theorem resolve_cons_covers {c : Clip} {g : ℚ} (rest : List Clip) (h : covers c g) :
    resolve (c :: rest) g = some c := by
  simp [resolve, h]

theorem resolve_cons_not_covers {c : Clip} {g : ℚ} (rest : List Clip) (h : ¬ covers c g) :
    resolve (c :: rest) g = resolve rest g := by
  simp [resolve, h]

theorem resolve_eq_none (clips : List Clip) (g : ℚ) (h : ∀ c ∈ clips, ¬ covers c g) :
    resolve clips g = none := by
  induction clips with
  | nil => rfl
  | cons c rest ih =>
      rw [resolve_cons_not_covers rest (h c (by simp))]
      exact ih fun b hb => h b (by simp [hb])

theorem resolve_append (pre l : List Clip) (g : ℚ) (h : ∀ b ∈ pre, ¬ covers b g) :
    resolve (pre ++ l) g = resolve l g := by
  induction pre with
  | nil => rfl
  | cons b pre ih =>
      rw [List.cons_append, resolve_cons_not_covers _ (h b (by simp))]
      exact ih fun x hx => h x (by simp [hx])

theorem split_clips_aux_append (n cid : ℕ) (t : ℚ) (pre l : List Clip)
    (h : ∀ b ∈ pre, b.id ≠ cid) :
    split_clips_aux n cid t (pre ++ l) = pre ++ split_clips_aux n cid t l := by
  induction pre with
  | nil => rfl
  | cons b pre ih =>
      have hb : ¬ b.id = cid := h b (by simp)
      simp only [List.cons_append, split_clips_aux, if_neg hb]
      exact congrArg (List.cons b) (ih fun x hx => h x (by simp [hx]))

theorem split_applies_append (cid : ℕ) (t : ℚ) (pre l : List Clip)
    (h : ∀ b ∈ pre, b.id ≠ cid) :
    split_applies cid t (pre ++ l) = split_applies cid t l := by
  induction pre with
  | nil => rfl
  | cons b pre ih =>
      have hb : ¬ b.id = cid := h b (by simp)
      simp only [List.cons_append, split_applies, if_neg hb]
      exact ih fun x hx => h x (by simp [hx])

theorem split_clips_aux_cons_self (n : ℕ) (t : ℚ) (c : Clip) (rest : List Clip)
    (h : c.start_time < t ∧ t < c.end_time) :
    split_clips_aux n c.id t (c :: rest) =
      { c with end_time := t } ::
      { source_video := c.source_video
        start_time := t
        end_time := c.end_time
        id := n
        position := c.position + (t - c.start_time) } :: rest := by
  simp [split_clips_aux, h]

/-! Claim theorems. -/

/-- C1 (corrected).  For a clip `c` (the first of its id in the list) and
`c.start < t < c.end`, `split_clip c.id t` replaces `c` by exactly two
clips: the original shrunk to end at `t`, and a new clip immediately after
it with `start = t`, the original end, and
`position = c.position + (t - c.start)`; their half-open source time ranges
partition `[c.start, c.end)` at `t`.  However, resolving the global time
`c.position + (t - c.start)` afterwards returns the ORIGINAL clip id, not
the new clip id as the claim states: covered intervals in the lookup loop
are closed, and the original clip comes first (here under the proviso that
no clip earlier in the list also covers that time). -/
theorem C1_split_two_clips_partition_resolve
    (app : VideoEditorApp) (pre post : List Clip) (c : Clip) (t : ℚ)
    (hdecomp : app.clips = pre ++ c :: post)
    (hfirst : ∀ b ∈ pre, b.id ≠ c.id)
    (hlo : c.start_time < t) (hhi : t < c.end_time)
    (hpre : ∀ b ∈ pre, ¬ covers b (c.position + (t - c.start_time))) :
    (split_clip app c.id t).clips =
      pre ++ { c with end_time := t } ::
        { source_video := c.source_video
          start_time := t
          end_time := c.end_time
          id := app.next_clip_id
          position := c.position + (t - c.start_time) } :: post ∧
    (∀ x : ℚ, (c.start_time ≤ x ∧ x < c.end_time) ↔
      ((c.start_time ≤ x ∧ x < t) ∨ (t ≤ x ∧ x < c.end_time))) ∧
    (∀ x : ℚ, ¬ ((c.start_time ≤ x ∧ x < t) ∧ (t ≤ x ∧ x < c.end_time))) ∧
    (resolve (split_clip app c.id t).clips (c.position + (t - c.start_time))).map Clip.id =
      some c.id := by
  have hclips : (split_clip app c.id t).clips =
      pre ++ { c with end_time := t } ::
        { source_video := c.source_video
          start_time := t
          end_time := c.end_time
          id := app.next_clip_id
          position := c.position + (t - c.start_time) } :: post := by
    show split_clips_aux app.next_clip_id c.id t app.clips = _
    rw [hdecomp, split_clips_aux_append _ _ _ _ _ hfirst,
      split_clips_aux_cons_self _ _ _ _ ⟨hlo, hhi⟩]
  refine ⟨hclips, ?_, ?_, ?_⟩
  · intro x
    constructor
    · rintro ⟨h1, h2⟩
      rcases lt_or_le x t with hx | hx
      · exact Or.inl ⟨h1, hx⟩
      · exact Or.inr ⟨hx, h2⟩
    · rintro (⟨h1, h2⟩ | ⟨h1, h2⟩)
      · exact ⟨h1, by linarith⟩
      · exact ⟨by linarith, h2⟩
  · rintro x ⟨⟨_, h2⟩, ⟨h3, _⟩⟩
    linarith
  · rw [hclips, resolve_append _ _ _ hpre, resolve_cons_covers]
    · rfl
    · constructor
      · simp only []
        linarith
      · simp only []
        linarith

/-- C1 fails as stated on the concrete demo timeline: splitting the single
clip `[0,10)` at `t = 4` creates the new clip with id 1, yet resolving the
boundary global time 4 returns the original clip id 0 rather than the new
clip id. -/
theorem C1_counterexample :
    demoSplit.clips.map Clip.id = [0, 1] ∧
    (resolve demoSplit.clips 4).map Clip.id = some 0 := by with_unfolding_all decide

theorem C1_witness :
    (resolve (split_clip demoApp demoClip.id 4).clips
      (demoClip.position + (4 - demoClip.start_time))).map Clip.id = some demoClip.id :=
  (C1_split_two_clips_partition_resolve demoApp [] [] demoClip 4 (by with_unfolding_all decide) (by with_unfolding_all decide)
    (by with_unfolding_all decide) (by with_unfolding_all decide) (by with_unfolding_all decide)).2.2.2

/-- C2 (corrected).  While playing, an advance tick stops playback and
resets the playhead to 0 when the new playhead reaches or passes the
LOADED SOURCE VIDEO duration — not the end of the last clip on the
timeline, as the claim states. -/
theorem C2_autostop_at_video_duration
    (app : VideoEditorApp) (video : VideoInfo) (delta : ℚ)
    (hplay : app.is_playing = true)
    (hvid : app.loaded_video = some video)
    (hend : video.duration ≤ app.playhead_position + delta) :
    (playback_tick app delta).is_playing = false ∧
    (playback_tick app delta).playhead_position = 0 := by
  simp [playback_tick, hplay, hvid, hend]

/-- C2 fails as stated: in `demoEndGap` the last clip on the timeline ends
at global time 5 while the loaded source lasts 10 seconds; the tick that
moves the playhead from 0 to 6 — past the end of the last clip — leaves the
scheduler Playing with playhead 6, instead of Stopped with playhead 0. -/
theorem C2_counterexample :
    demoEndGap.is_playing = true ∧
    demoEndGap.playhead_position = 0 ∧
    (∀ c ∈ demoEndGap.clips, c.position + (c.end_time - c.start_time) ≤ 5) ∧
    (playback_tick demoEndGap 6).is_playing = true ∧
    (playback_tick demoEndGap 6).playhead_position = 6 := by with_unfolding_all decide

theorem C2_witness :
    (playback_tick (press_play demoApp) (21/2)).is_playing = false ∧
    (playback_tick (press_play demoApp) (21/2)).playhead_position = 0 :=
  C2_autostop_at_video_duration (press_play demoApp) demoInfo (21/2) (by with_unfolding_all decide) (by with_unfolding_all decide)
    (by with_unfolding_all decide)

/-- C5 (corrected).  The lookup loop returns the FIRST clip in list order
whose closed covered interval contains the global time — membership in the
list, not smallest id, breaks ties between overlapping clips. -/
theorem C5_resolve_first_in_list_order
    (pre post : List Clip) (c : Clip) (g : ℚ)
    (hpre : ∀ b ∈ pre, ¬ covers b g) (hc : covers c g) :
    resolve (pre ++ c :: post) g = some c := by
  rw [resolve_append _ _ _ hpre, resolve_cons_covers _ hc]

/-- C5 fails as stated: in `demoOverlapSplit` the clips appear in list
order with ids `[0, 2, 1]`; at global time 5 both the clip with id 2 and
the clip with id 1 cover the instant, and resolve returns id 2 — not the
smallest overlapping id 1. -/
theorem C5_counterexample :
    (resolve demoOverlapSplit.clips 5).map Clip.id = some 2 ∧
    (∃ b ∈ demoOverlapSplit.clips, covers b 5 ∧ b.id = 1) := by with_unfolding_all decide

theorem C5_witness :
    resolve ([demoClipLeft] ++ demoClipRight :: [demoClipB]) 5 = some demoClipRight :=
  C5_resolve_first_in_list_order [demoClipLeft] [demoClipB] demoClipRight 5
    (by with_unfolding_all decide) (by with_unfolding_all decide)

/-- C6 (corrected).  When the global time lies outside EVERY clip covered
interval, resolve returns none — but the covered interval of the code is
the CLOSED interval `[position, position + (end - start)]`, not the
half-open one of the claim: a time equal to a clip right endpoint is still
resolved to that clip. -/
theorem C6_resolve_gap_none
    (clips : List Clip) (g : ℚ)
    (h : ∀ c ∈ clips, ¬ covers c g) :
    resolve clips g = none :=
  resolve_eq_none clips g h

/-- C6 fails as stated: global time 10 lies outside the half-open covered
interval `[0, 10)` of the only clip of `demoApp`, yet resolve returns that
clip instead of none, because the code tests the closed interval. -/
theorem C6_counterexample :
    (∀ c ∈ demoApp.clips,
      ¬ (c.position ≤ 10 ∧ (10 : ℚ) < c.position + (c.end_time - c.start_time))) ∧
    (resolve demoApp.clips 10).map Clip.id = some 0 := by with_unfolding_all decide

theorem C6_witness : resolve demoApp.clips 11 = none :=
  C6_resolve_gap_none demoApp.clips 11 (by with_unfolding_all decide)

/-- C7 (confirmed).  For the clip `c` carrying the requested id (the first
such clip in the list) and any split time outside the open interval
`(c.start, c.end)`, `split_clip` is a strict no-op: the whole application
state, in particular the clip list, is unchanged. -/
theorem C7_split_outside_noop
    (app : VideoEditorApp) (pre post : List Clip) (c : Clip) (t : ℚ)
    (hdecomp : app.clips = pre ++ c :: post)
    (hfirst : ∀ b ∈ pre, b.id ≠ c.id)
    (hout : t ≤ c.start_time ∨ c.end_time ≤ t) :
    split_clip app c.id t = app := by
  have hcond : ¬ (c.start_time < t ∧ t < c.end_time) := by
    rcases hout with h | h
    · intro hc; linarith [hc.1]
    · intro hc; linarith [hc.2]
  have h1 : split_clips_aux app.next_clip_id c.id t app.clips = app.clips := by
    rw [hdecomp, split_clips_aux_append _ _ _ _ _ hfirst]
    simp [split_clips_aux, hcond]
  have h2 : split_applies c.id t app.clips = false := by
    rw [hdecomp, split_applies_append _ _ _ _ hfirst]
    simp [split_applies, hcond]
  simp [split_clip, h1, h2]

theorem C7_witness : split_clip demoApp demoClip.id 12 = demoApp :=
  C7_split_outside_noop demoApp [] [] demoClip 12 (by with_unfolding_all decide) (by with_unfolding_all decide)
    (Or.inr (by with_unfolding_all decide))

/-- C8 (confirmed).  With a clip selected, delete removes exactly the clips
carrying the selected id: the result is a sublist of the original list (so
no surviving clip has any field, in particular `position`, changed and no
order is disturbed), every surviving clip is an unchanged original clip
with a different id, every original clip with a different id survives, and
resolving any global time that only clips with the deleted id covered
returns none afterwards. -/
theorem C8_delete_removes_exactly
    (app : VideoEditorApp) (sid : ℕ)
    (hsel : app.selected_clip = some sid) :
    (delete_selected_clip app).clips.Sublist app.clips ∧
    (∀ c ∈ (delete_selected_clip app).clips, c ∈ app.clips ∧ c.id ≠ sid) ∧
    (∀ c ∈ app.clips, c.id ≠ sid → c ∈ (delete_selected_clip app).clips) ∧
    (∀ g : ℚ, (∀ c ∈ app.clips, c.id ≠ sid → ¬ covers c g) →
      resolve (delete_selected_clip app).clips g = none) := by
  have hdel : (delete_selected_clip app).clips =
      app.clips.filter (fun c => c.id != sid) := by
    simp [delete_selected_clip, hsel]
  refine ⟨?_, ?_, ?_, ?_⟩
  · rw [hdel]; exact List.filter_sublist _
  · intro c hc
    rw [hdel] at hc
    have h := List.mem_filter.mp hc
    exact ⟨h.1, by simpa using h.2⟩
  · intro c hc hne
    rw [hdel]
    exact List.mem_filter.mpr ⟨hc, by simpa using hne⟩
  · intro g hg
    apply resolve_eq_none
    intro c hc
    rw [hdel] at hc
    have h := List.mem_filter.mp hc
    exact hg c h.1 (by simpa using h.2)

theorem C8_witness :
    resolve (delete_selected_clip demoSelected).clips 2 = none :=
  (C8_delete_removes_exactly demoSelected 0 (by with_unfolding_all decide)).2.2.2 2 (by with_unfolding_all decide)

/-! Invariant lemmas for C9 and C10. -/

theorem split_clips_aux_pos_mono (n cid : ℕ) (t : ℚ) (l : List Clip) :
    ∀ x ∈ split_clips_aux n cid t l, ∃ d ∈ l, d.position ≤ x.position := by
  induction l with
  | nil => intro x hx; simp [split_clips_aux] at hx
  | cons c rest ih =>
      intro x hx
      simp only [split_clips_aux] at hx
      split at hx
      · split at hx
        · rename_i hid hc
          rcases List.mem_cons.mp hx with h | hx2
          · exact ⟨c, List.mem_cons_self c rest, le_of_eq (by rw [h])⟩
          rcases List.mem_cons.mp hx2 with h | hx3
          · refine ⟨c, List.mem_cons_self c rest, ?_⟩
            rw [h]
            show c.position ≤ c.position + (t - c.start_time)
            linarith [hc.1]
          · exact ⟨x, List.mem_cons_of_mem c hx3, le_rfl⟩
        · exact ⟨x, hx, le_rfl⟩
      · rcases List.mem_cons.mp hx with h | hx2
        · exact ⟨c, List.mem_cons_self c rest, le_of_eq (by rw [h])⟩
        · obtain ⟨d, hd, hle⟩ := ih x hx2
          exact ⟨d, List.mem_cons_of_mem c hd, hle⟩

theorem TimelineWf_split_clips_aux (n cid : ℕ) (t : ℚ) (l : List Clip)
    (h : TimelineWf l) : TimelineWf (split_clips_aux n cid t l) := by
  induction l with
  | nil => simpa [split_clips_aux] using h
  | cons c rest ih =>
      obtain ⟨hwf, hpw⟩ := h
      have hwfc : ClipWf c := hwf c (List.mem_cons_self c rest)
      have hwfrest : ∀ b ∈ rest, ClipWf b := fun b hb => hwf b (List.mem_cons_of_mem c hb)
      rw [List.pairwise_cons] at hpw
      obtain ⟨hrel, hprest⟩ := hpw
      obtain ⟨hc1, hc2, hc3⟩ := hwfc
      simp only [split_clips_aux]
      split
      · rename_i hid
        split
        · rename_i hc
          constructor
          · intro x hx
            rcases List.mem_cons.mp hx with h | hx2
            · rw [h]
              exact ⟨hc.1, le_trans (le_of_lt hc.2) hc2, hc3⟩
            rcases List.mem_cons.mp hx2 with h | hx3
            · rw [h]
              refine ⟨hc.2, hc2, ?_⟩
              show (0 : ℚ) ≤ c.position + (t - c.start_time)
              linarith [hc.1]
            · exact hwfrest x hx3
          · rw [List.pairwise_cons, List.pairwise_cons]
            refine ⟨?_, ?_, hprest⟩
            · intro b hb
              rcases List.mem_cons.mp hb with h | hb2
              · rw [h]
                show c.position + (t - c.start_time) ≤ c.position + (t - c.start_time)
                exact le_rfl
              · have hcb := hrel b hb2
                unfold clipBefore at hcb ⊢
                show c.position + (t - c.start_time) ≤ b.position
                linarith [hc.2]
            · intro b hb
              have hcb := hrel b hb
              unfold clipBefore at hcb ⊢
              show c.position + (t - c.start_time) + (c.end_time - t) ≤ b.position
              linarith
        · exact ⟨hwf, List.pairwise_cons.mpr ⟨hrel, hprest⟩⟩
      · constructor
        · intro x hx
          rcases List.mem_cons.mp hx with h | hx2
          · rw [h]; exact ⟨hc1, hc2, hc3⟩
          · exact (ih ⟨hwfrest, hprest⟩).1 x hx2
        · rw [List.pairwise_cons]
          refine ⟨?_, (ih ⟨hwfrest, hprest⟩).2⟩
          intro x hx
          obtain ⟨d, hd, hle⟩ := split_clips_aux_pos_mono n cid t rest x hx
          have hcd := hrel d hd
          unfold clipBefore at hcd ⊢
          linarith

theorem TimelineWf_filter (p : Clip → Bool) (l : List Clip)
    (h : TimelineWf l) : TimelineWf (l.filter p) :=
  ⟨fun c hc => h.1 c (List.mem_of_mem_filter hc),
    h.2.sublist (List.filter_sublist l)⟩

theorem TimelineWf_apply_op (app : VideoEditorApp) (op : EditOp)
    (hop : op.isLoad = false) (h : TimelineWf app.clips) :
    TimelineWf (apply_op app op).clips := by
  cases op with
  | load path len => simp [EditOp.isLoad] at hop
  | split cid t => exact TimelineWf_split_clips_aux _ _ _ _ h
  | click g shift =>
      show TimelineWf (handle_timeline_click app g shift).clips
      unfold handle_timeline_click
      cases hres : resolve app.clips g with
      | none => exact h
      | some clip =>
          cases shift with
          | true =>
              exact TimelineWf_split_clips_aux app.next_clip_id clip.id
                (clip.start_time + (g - clip.position)) app.clips h
          | false => exact h
  | deleteSelected =>
      show TimelineWf (delete_selected_clip app).clips
      unfold delete_selected_clip
      cases hsel : app.selected_clip with
      | none => exact h
      | some sid => exact TimelineWf_filter _ _ h

theorem TimelineWf_apply_ops (app : VideoEditorApp) (ops : List EditOp)
    (hops : ∀ op ∈ ops, op.isLoad = false) (h : TimelineWf app.clips) :
    TimelineWf (apply_ops app ops).clips := by
  induction ops generalizing app with
  | nil => exact h
  | cons op ops ih =>
      exact ih (apply_op app op) (fun o ho => hops o (List.mem_cons_of_mem op ho))
        (TimelineWf_apply_op app op (hops op (List.mem_cons_self op ops)) h)

/-- C9 (corrected).  Starting from the initial state, after ONE load of a
source whose estimated duration is positive (file at least 1 MB, so the
rough byte-length estimate gives at least one second) and then any
sequence of split, timeline-click and delete operations (no further
loads), every clip satisfies `start < end <= source.duration` and
`position >= 0`, and the clip list is in strictly ascending position
order.  The claim as stated — over ANY sequence of load, split and delete
operations — is false: a second load appends its clip at position 0 behind
clips at later positions, and a load of a small file produces a clip with
`start = end = 0`. -/
theorem C9_invariants_single_load
    (path : String) (len : ℕ) (hlen : 1000000 ≤ len)
    (ops : List EditOp) (hops : ∀ op ∈ ops, op.isLoad = false) :
    (∀ c ∈ (apply_ops (load_video VideoEditorApp.default path (some len)) ops).clips,
      c.start_time < c.end_time ∧ c.end_time ≤ c.source_video.duration ∧
        0 ≤ c.position) ∧
    (apply_ops (load_video VideoEditorApp.default path (some len)) ops).clips.Pairwise
      (fun a b => a.position < b.position) := by
  have hdur : (0 : ℚ) < ((len / 1000000 : ℕ) : ℚ) := by
    have h1 : 1 ≤ len / 1000000 := (Nat.one_le_div_iff (by norm_num)).mpr hlen
    exact_mod_cast lt_of_lt_of_le Nat.zero_lt_one h1
  have h0 : TimelineWf (load_video VideoEditorApp.default path (some len)).clips := by
    constructor
    · intro c hc
      simp only [load_video, parse_mov_file, VideoEditorApp.default,
        List.nil_append, List.mem_singleton] at hc
      rw [hc]
      exact ⟨hdur, le_rfl, le_rfl⟩
    · simp only [load_video, parse_mov_file, VideoEditorApp.default, List.nil_append]
      exact List.pairwise_singleton _ _
  have h := TimelineWf_apply_ops _ ops hops h0
  refine ⟨h.1, ?_⟩
  refine h.2.imp_of_mem ?_
  intro a b ha hb hr
  have hwa := h.1 a ha
  unfold ClipWf at hwa
  unfold clipBefore at hr
  linarith [hwa.1]

/-- C9 fails as stated: after two loads and a split, the clip positions in
list order are `[0, 4, 0]`, not ascending; and a load of a 5-byte file
produces a clip with `start = end = 0`, violating `start < end`. -/
theorem C9_counterexample :
    demoOverlapSplit.clips.map Clip.position = [0, 4, 0] ∧
    ¬ demoOverlapSplit.clips.Pairwise (fun a b => a.position ≤ b.position) ∧
    ¬ (∀ c ∈ (load_video VideoEditorApp.default "b.mov" (some 5)).clips,
        c.start_time < c.end_time) := by with_unfolding_all decide

theorem C9_witness :
    (apply_ops (load_video VideoEditorApp.default "a.mov" (some 10000000))
      [EditOp.split 0 4, EditOp.click 2 false, EditOp.deleteSelected]).clips.Pairwise
      (fun a b => a.position < b.position) :=
  (C9_invariants_single_load "a.mov" 10000000 (by norm_num)
    [EditOp.split 0 4, EditOp.click 2 false, EditOp.deleteSelected]
    (by with_unfolding_all decide)).2

theorem split_clips_aux_id_mem (n cid : ℕ) (t : ℚ) (l : List Clip) :
    ∀ x ∈ split_clips_aux n cid t l, x.id ∈ l.map Clip.id ∨ x.id = n := by
  induction l with
  | nil => intro x hx; simp [split_clips_aux] at hx
  | cons c rest ih =>
      intro x hx
      simp only [split_clips_aux] at hx
      split at hx
      · split at hx
        · rcases List.mem_cons.mp hx with h | hx2
          · left; rw [h]; simp
          rcases List.mem_cons.mp hx2 with h | hx3
          · right; rw [h]
          · left
            simp only [List.map_cons, List.mem_cons]
            exact Or.inr (List.mem_map_of_mem Clip.id hx3)
        · rcases List.mem_cons.mp hx with h | hx2
          · left; rw [h]; simp
          · left
            simp only [List.map_cons, List.mem_cons]
            exact Or.inr (List.mem_map_of_mem Clip.id hx2)
      · rcases List.mem_cons.mp hx with h | hx2
        · left; rw [h]; simp
        · rcases ih x hx2 with h | h
          · left
            simp only [List.map_cons, List.mem_cons]
            exact Or.inr h
          · right; exact h

theorem split_clips_aux_ids (n cid : ℕ) (t : ℚ) (l : List Clip)
    (hlt : ∀ c ∈ l, c.id < n) (hnd : (l.map Clip.id).Nodup) :
    ((split_clips_aux n cid t l).map Clip.id).Nodup ∧
    (∀ x ∈ split_clips_aux n cid t l, x.id < n + 1) := by
  induction l with
  | nil => simp [split_clips_aux]
  | cons c rest ih =>
      have hcn : c.id < n := hlt c (List.mem_cons_self c rest)
      have hrestlt : ∀ b ∈ rest, b.id < n := fun b hb => hlt b (List.mem_cons_of_mem c hb)
      simp only [List.map_cons, List.nodup_cons] at hnd
      obtain ⟨hcnot, hndrest⟩ := hnd
      simp only [split_clips_aux]
      split
      · split
        · constructor
          · simp only [List.map_cons, List.nodup_cons, List.mem_cons]
            refine ⟨?_, ?_, hndrest⟩
            · rintro (h | h)
              · exact absurd h (Nat.ne_of_lt hcn)
              · exact hcnot h
            · intro hmem
              obtain ⟨d, hd, hdid⟩ := List.mem_map.mp hmem
              exact absurd hdid (Nat.ne_of_lt (hrestlt d hd))
          · intro x hx
            rcases List.mem_cons.mp hx with h | hx2
            · rw [h]
              exact Nat.lt_succ_of_lt hcn
            rcases List.mem_cons.mp hx2 with h | hx3
            · rw [h]
              exact Nat.lt_succ_self n
            · exact Nat.lt_succ_of_lt (hrestlt x hx3)
        · constructor
          · simp only [List.map_cons, List.nodup_cons]
            exact ⟨hcnot, hndrest⟩
          · intro x hx
            rcases List.mem_cons.mp hx with h | hx2
            · rw [h]; exact Nat.lt_succ_of_lt hcn
            · exact Nat.lt_succ_of_lt (hrestlt x hx2)
      · obtain ⟨ihnd, ihlt⟩ := ih hrestlt hndrest
        constructor
        · simp only [List.map_cons, List.nodup_cons]
          refine ⟨?_, ihnd⟩
          intro hmem
          obtain ⟨d, hd, hdid⟩ := List.mem_map.mp hmem
          rcases split_clips_aux_id_mem n cid t rest d hd with h | h
          · rw [← hdid] at hcnot
            exact hcnot h
          · rw [h] at hdid
            exact absurd hdid.symm (Nat.ne_of_lt hcn)
        · intro x hx
          rcases List.mem_cons.mp hx with h | hx2
          · rw [h]; exact Nat.lt_succ_of_lt hcn
          · exact ihlt x hx2

theorem split_clips_aux_not_applies (n cid : ℕ) (t : ℚ) (l : List Clip)
    (h : split_applies cid t l = false) : split_clips_aux n cid t l = l := by
  induction l with
  | nil => rfl
  | cons c rest ih =>
      simp only [split_applies] at h
      simp only [split_clips_aux]
      split
      · rename_i hid
        rw [if_pos hid] at h
        rw [if_neg (of_decide_eq_false h)]
      · rename_i hid
        rw [if_neg hid] at h
        rw [ih h]

theorem IdInv_split_clip (app : VideoEditorApp) (cid : ℕ) (t : ℚ)
    (h : IdInv app) : IdInv (split_clip app cid t) := by
  obtain ⟨hlt, hnd⟩ := h
  cases happ : split_applies cid t app.clips with
  | false =>
      constructor
      · intro c hc
        show c.id < (if split_applies cid t app.clips then app.next_clip_id + 1
          else app.next_clip_id)
        rw [happ]
        simp only [Bool.false_eq_true, if_false]
        have hc2 : c ∈ app.clips := by
          rw [show (split_clip app cid t).clips = app.clips from
            split_clips_aux_not_applies app.next_clip_id cid t app.clips happ] at hc
          exact hc
        exact hlt c hc2
      · show ((split_clips_aux app.next_clip_id cid t app.clips).map Clip.id).Nodup
        rw [split_clips_aux_not_applies app.next_clip_id cid t app.clips happ]
        exact hnd
  | true =>
      obtain ⟨hnd2, hlt2⟩ := split_clips_aux_ids app.next_clip_id cid t app.clips hlt hnd
      constructor
      · intro c hc
        show c.id < (if split_applies cid t app.clips then app.next_clip_id + 1
          else app.next_clip_id)
        rw [happ, if_pos rfl]
        exact hlt2 c hc
      · exact hnd2

theorem IdInv_load_video (app : VideoEditorApp) (path : String)
    (file_len : Option ℕ) (h : IdInv app) : IdInv (load_video app path file_len) := by
  obtain ⟨hlt, hnd⟩ := h
  cases file_len with
  | none => exact ⟨hlt, hnd⟩
  | some len =>
      constructor
      · intro c hc
        simp only [load_video, parse_mov_file, List.mem_append,
          List.mem_singleton] at hc
        show c.id < app.next_clip_id + 1
        rcases hc with hc | hc
        · exact Nat.lt_succ_of_lt (hlt c hc)
        · rw [hc]
          exact Nat.lt_succ_self app.next_clip_id
      · show ((app.clips ++ [_]).map Clip.id).Nodup
        rw [List.map_append]
        apply List.Nodup.append hnd (List.nodup_singleton _)
        intro a ha hb
        simp only [List.map_cons, List.map_nil, List.mem_singleton] at hb
        obtain ⟨d, hd, hdid⟩ := List.mem_map.mp ha
        rw [hb] at hdid
        exact absurd hdid (Nat.ne_of_lt (hlt d hd))

theorem IdInv_apply_op (app : VideoEditorApp) (op : EditOp)
    (h : IdInv app) : IdInv (apply_op app op) := by
  cases op with
  | load path len => exact IdInv_load_video app path len h
  | split cid t => exact IdInv_split_clip app cid t h
  | click g shift =>
      show IdInv (handle_timeline_click app g shift)
      unfold handle_timeline_click
      cases hres : resolve app.clips g with
      | none => exact h
      | some clip =>
          cases shift with
          | true =>
              exact IdInv_split_clip app clip.id
                (clip.start_time + (g - clip.position)) h
          | false => exact ⟨h.1, h.2⟩
  | deleteSelected =>
      show IdInv (delete_selected_clip app)
      unfold delete_selected_clip
      cases hsel : app.selected_clip with
      | none => exact h
      | some sid =>
          constructor
          · intro c hc
            exact h.1 c (List.mem_of_mem_filter hc)
          · exact h.2.sublist ((List.filter_sublist app.clips).map Clip.id)

theorem IdInv_apply_ops (app : VideoEditorApp) (ops : List EditOp)
    (h : IdInv app) : IdInv (apply_ops app ops) := by
  induction ops generalizing app with
  | nil => exact h
  | cons op ops ih => exact ih (apply_op app op) (IdInv_apply_op app op h)

/-- C10 (confirmed).  After any sequence of load, split, click and delete
operations from the initial state, the clip ids are pairwise distinct and
the next-id counter is strictly greater than every existing clip id, so
every clip created by load or split receives a fresh id. -/
theorem C10_ids_distinct_and_fresh (ops : List EditOp) :
    ((apply_ops VideoEditorApp.default ops).clips.map Clip.id).Nodup ∧
    ∀ c ∈ (apply_ops VideoEditorApp.default ops).clips,
      c.id < (apply_ops VideoEditorApp.default ops).next_clip_id := by
  have h : IdInv (apply_ops VideoEditorApp.default ops) := by
    refine IdInv_apply_ops VideoEditorApp.default ops ?_
    exact ⟨by intro c hc; simp [VideoEditorApp.default] at hc,
      by simp [VideoEditorApp.default]⟩
  exact ⟨h.2, h.1⟩

theorem C10_witness :
    ((apply_ops VideoEditorApp.default
      [EditOp.load "a.mov" (some 10000000), EditOp.split 0 4]).clips.map Clip.id).Nodup :=
  (C10_ids_distinct_and_fresh [EditOp.load "a.mov" (some 10000000), EditOp.split 0 4]).1

/-! Lemmas about the seek model and the read loop, for C3 and C4. -/

theorem libSeekIndex_none (stream : ℕ) (ts : ℤ) (l : List FPacket)
    (h : libSeekIndex stream ts l = none) :
    ∀ j p, l.get? j = some p → keyframe_le stream ts p = false := by
  induction l with
  | nil => intro j p hj; simp at hj
  | cons q rest ih =>
      simp only [libSeekIndex] at h
      cases hrest : libSeekIndex stream ts rest with
      | some i => rw [hrest] at h; simp at h
      | none =>
          rw [hrest] at h
          intro j p hj
          cases j with
          | zero =>
              simp only [List.get?] at hj
              cases hj
              by_cases hk : keyframe_le stream ts q = true
              · rw [if_pos hk] at h; simp at h
              · simpa using hk
          | succ j => exact ih hrest j p (by simpa using hj)

theorem libSeekIndex_some (stream : ℕ) (ts : ℤ) (l : List FPacket) (i : ℕ)
    (h : libSeekIndex stream ts l = some i) :
    (∃ p, l.get? i = some p ∧ keyframe_le stream ts p = true) ∧
    (∀ j p, i < j → l.get? j = some p → keyframe_le stream ts p = false) := by
  induction l generalizing i with
  | nil => simp [libSeekIndex] at h
  | cons q rest ih =>
      simp only [libSeekIndex] at h
      cases hrest : libSeekIndex stream ts rest with
      | some k =>
          rw [hrest] at h
          have hi : i = k + 1 := by
            simpa using h.symm
          subst hi
          obtain ⟨⟨p, hp, hk⟩, hafter⟩ := ih k hrest
          constructor
          · exact ⟨p, by simpa using hp, hk⟩
          · intro j p2 hj hjp
            cases j with
            | zero => omega
            | succ j => exact hafter j p2 (by omega) (by simpa using hjp)
      | none =>
          rw [hrest] at h
          by_cases hk : keyframe_le stream ts q = true
          · rw [if_pos hk] at h
            have hi : i = 0 := by simpa using h.symm
            subst hi
            constructor
            · exact ⟨q, rfl, hk⟩
            · intro j p2 hj hjp
              cases j with
              | zero => omega
              | succ j => exact libSeekIndex_none stream ts rest hrest j p2 (by simpa using hjp)
          · rw [if_neg hk] at h
            simp at h

theorem read_frame_loop_none (d : FFmpegDecoder) (l : List FPacket)
    (h : ∀ p ∈ l, ¬ (p.stream_index = d.video_stream_index ∧ p.decodable = true)) :
    read_frame_loop d l = (l.length, d.current_frame) := by
  induction l with
  | nil => rfl
  | cons p rest ih =>
      simp only [read_frame_loop, if_neg (h p (List.mem_cons_self p rest))]
      rw [ih fun q hq => h q (List.mem_cons_of_mem p hq)]
      rfl

theorem read_frame_loop_cursor_irrelevant (d : FFmpegDecoder) (n : ℕ)
    (l : List FPacket) :
    read_frame_loop { d with cursor := n } l = read_frame_loop d l := by
  induction l with
  | nil => rfl
  | cons p rest ih =>
      show (if p.stream_index = d.video_stream_index ∧ p.decodable = true
          then ((1 : ℕ), some (decode_frame d p))
          else ((read_frame_loop { d with cursor := n } rest).1 + 1,
            (read_frame_loop { d with cursor := n } rest).2)) =
        (if p.stream_index = d.video_stream_index ∧ p.decodable = true
          then ((1 : ℕ), some (decode_frame d p))
          else ((read_frame_loop d rest).1 + 1, (read_frame_loop d rest).2))
      rw [ih]

/-- C3 (corrected).  A successful `seek_to_time` repositions the demux
cursor to the latest video keyframe at or before the requested timestamp
(no later packet is such a keyframe), but it does NOT invalidate the
buffered frame: `get_current_frame` still returns whatever frame was
buffered before the seek, contrary to the claim that the decoder holds no
stale current frame after seeking. -/
theorem C3_seek_keyframe_no_invalidation
    (d d2 : FFmpegDecoder) (t : ℚ)
    (h : seek_to_time d t = Except.ok d2) :
    d2.all_packets = d.all_packets ∧
    (∃ p, d.all_packets.get? d2.cursor = some p ∧
      keyframe_le d.video_stream_index ⌊t / d.time_base⌋ p = true) ∧
    (∀ j p, d2.cursor < j → d.all_packets.get? j = some p →
      keyframe_le d.video_stream_index ⌊t / d.time_base⌋ p = false) ∧
    get_current_frame d2 = get_current_frame d := by
  simp only [seek_to_time] at h
  cases hseek : libSeekIndex d.video_stream_index ⌊t / d.time_base⌋ d.all_packets with
  | none => rw [hseek] at h; simp at h
  | some i =>
      rw [hseek] at h
      injection h with h2
      obtain ⟨hex, hafter⟩ := libSeekIndex_some _ _ _ _ hseek
      rw [← h2]
      exact ⟨rfl, hex, hafter, rfl⟩

/-- C3 fails as stated: `demoEosDecoder` holds a buffered frame; seeking
back to time 1 succeeds (the cursor returns to the keyframe at index 0),
yet `get_current_frame` still yields the stale buffered frame instead of
nothing. -/
theorem C3_counterexample :
    seek_to_time demoEosDecoder 1 = Except.ok { demoEosDecoder with cursor := 0 } ∧
    ({ demoEosDecoder with cursor := 0 } : FFmpegDecoder).cursor ≠ demoEosDecoder.cursor ∧
    (get_current_frame { demoEosDecoder with cursor := 0 }).isSome = true := by
  refine ⟨by with_unfolding_all rfl, by with_unfolding_all decide, by with_unfolding_all decide⟩

theorem C3_witness :
    get_current_frame { demoEosDecoder with cursor := 0 } =
      get_current_frame demoEosDecoder :=
  (C3_seek_keyframe_no_invalidation demoEosDecoder { demoEosDecoder with cursor := 0 } 1
    (by with_unfolding_all rfl)).2.2.2

/-- C4 (corrected).  When no remaining packet is a decodable video packet
(in particular at end-of-stream), `read_frame` returns `self.current_frame`
— the previously decoded frame when one exists, `none` only when no frame
was ever decoded — contrary to the claim that it returns `None` in those
cases.  The soft-skip half of the claim does hold: a leading packet that is
not a decodable video packet is skipped and reading continues with the
remaining packets exactly as if the cursor had started one packet later. -/
theorem C4_read_frame_eos_and_skip (d : FFmpegDecoder) :
    ((∀ p ∈ d.all_packets.drop d.cursor,
        ¬ (p.stream_index = d.video_stream_index ∧ p.decodable = true)) →
      (read_frame d).2 = d.current_frame) ∧
    (∀ p rest, d.all_packets.drop d.cursor = p :: rest →
      ¬ (p.stream_index = d.video_stream_index ∧ p.decodable = true) →
      read_frame d = read_frame { d with cursor := d.cursor + 1 }) := by
  constructor
  · intro h
    show (read_frame_loop d (d.all_packets.drop d.cursor)).2 = d.current_frame
    rw [read_frame_loop_none d _ h]
  · intro p rest hd hbad
    have hdrop : d.all_packets.drop (d.cursor + 1) = rest := by
      rw [← List.tail_drop, hd]
      rfl
    have hL : read_frame d =
        ({ d with
            cursor := d.cursor + ((read_frame_loop d rest).1 + 1)
            current_frame := (read_frame_loop d rest).2 },
          (read_frame_loop d rest).2) := by
      unfold read_frame
      rw [hd]
      simp only [read_frame_loop, if_neg hbad]
    have hR : read_frame { d with cursor := d.cursor + 1 } =
        ({ d with
            cursor := d.cursor + 1 + (read_frame_loop d rest).1
            current_frame := (read_frame_loop d rest).2 },
          (read_frame_loop d rest).2) := by
      unfold read_frame
      rw [show ({ d with cursor := d.cursor + 1 } : FFmpegDecoder).all_packets.drop
          ({ d with cursor := d.cursor + 1 } : FFmpegDecoder).cursor = rest from hdrop]
      rw [read_frame_loop_cursor_irrelevant d (d.cursor + 1) rest]
    have he : d.cursor + ((read_frame_loop d rest).1 + 1) =
        d.cursor + 1 + (read_frame_loop d rest).1 := by omega
    rw [hL, hR, he]

/-- C4 fails as stated: `demoEosDecoder` is at end-of-stream with a
previously decoded frame buffered, and `read_frame` returns that previous
frame (it is not `None`). -/
theorem C4_counterexample :
    demoEosDecoder.all_packets.drop demoEosDecoder.cursor = [] ∧
    demoEosDecoder.current_frame.isSome = true ∧
    (read_frame demoEosDecoder).2 = demoEosDecoder.current_frame ∧
    ((read_frame demoEosDecoder).2).isSome = true := by
  with_unfolding_all decide

theorem C4_witness :
    (read_frame demoEosDecoder).2 = demoEosDecoder.current_frame ∧
    read_frame demoSkipDecoder =
      read_frame { demoSkipDecoder with cursor := demoSkipDecoder.cursor + 1 } :=
  ⟨(C4_read_frame_eos_and_skip demoEosDecoder).1 (by with_unfolding_all decide),
    (C4_read_frame_eos_and_skip demoSkipDecoder).2 demoAudioPacket [demoPacket]
      (by with_unfolding_all decide) (by with_unfolding_all decide)⟩

end MovEditor
